import Mathlib

/-!
# Atmega UART library: a shallow embedding of `uart.c`

The transmit routines of `uart.c` are embedded as functions that return the
list of bytes handed to `UART_putc`, in order (the successive writes of `UDR`).
The busy-wait on the `UDRE` flag is assumed to end, so every `UART_putc`
contributes exactly its byte.  The receive routine `UART_getLine` is embedded
as a function of the bytes delivered by the receiver (what successive calls of
`UART_getc` return) and of the memory found at `buffer`.

Machine integers are `Nat` (unsigned) and `Int` (signed) with explicit
reduction modulo `2^w`.  The target is an AVR: `int` is 16 bits wide and a
plain `char` is signed.
-/

namespace UART

/-! ## Integer conversions -/

/-- Conversion of an integer to `uint8_t`. -/
def toU8 (x : Int) : Nat := (x % 256).toNat

/-- Conversion of an integer to `uint16_t`. -/
def toU16 (x : Int) : Nat := (x % 65536).toNat

/-- Conversion of an integer to `int8_t` (also a plain `char`), by wraparound. -/
def toS8 (x : Int) : Int := (x + 128) % 256 - 128

/-- Conversion of an integer to `int16_t` (also `int`), by wraparound. -/
def toS16 (x : Int) : Int := (x + 32768) % 65536 - 32768

/-! ## Transmit side -/

/-- `UART_putc(uint8_t data)`: one byte is loaded into `UDR`. -/
def UART_putc (data : Nat) : List Nat := [data % 256]

/-- `UART_puts(char *s)`: `s` is the memory from the pointer onwards.
`while (*s > 0) UART_putc(*s++);` with a signed `char`.  Running off the end of
the modelled memory is `none`. -/
def UART_puts : List Nat → Option (List Nat)
  | [] => none
  | b :: s =>
    if toS8 b > 0 then
      (UART_puts s).map (fun out => UART_putc (toU8 (toS8 b)) ++ out)
    else some []

/-- `UART_puthex8(uint8_t val)`. -/
def UART_puthex8 (val : Nat) : List Nat :=
  let upperNibble := ((val &&& 0xF0) >>> 4) % 256
  let lowerNibble := (val &&& 0x0F) % 256
  let upperNibble := (upperNibble + (if upperNibble > 9 then 65 - 10 else 48)) % 256
  let lowerNibble := (lowerNibble + (if lowerNibble > 9 then 65 - 10 else 48)) % 256
  UART_putc upperNibble ++ UART_putc lowerNibble

/-- `UART_puthex16(uint16_t val)`. -/
def UART_puthex16 (val : Nat) : List Nat :=
  UART_puthex8 ((val >>> 8) % 256) ++ UART_puthex8 ((val &&& 0x00FF) % 256)

/-- `UART_puthex32(uint32_t val)`. -/
def UART_puthex32 (val : Nat) : List Nat :=
  UART_puthex16 ((val >>> 16) % 65536) ++ UART_puthex16 ((val &&& 0x0000FFFF) % 65536)

/-- The loop `while (val >= d) { val -= d; digit++; }` on a `val` of modulus `m`
and a `uint8_t digit`; the result is the final `(val, digit)`. -/
def digitLoop (d : Nat) (hd : 0 < d) (m : Nat) (val digit : Nat) : Nat × Nat :=
  if val ≥ d then digitLoop d hd m ((val - d) % m) ((digit + 1) % 256) else (val, digit)
termination_by val
decreasing_by
  have := Nat.mod_le (val - d) m
  omega

/-- `UART_putU8(uint8_t val)`. -/
def UART_putU8 (val : Nat) : List Nat :=
  let r1 := digitLoop 100 (by decide) 256 val 48
  let digit1 := r1.2
  let r2 := digitLoop 10 (by decide) 256 r1.1 48
  let digit2 := r2.2
  let val := r2.1
  (if digit1 ≠ 0 then UART_putc digit1 else [])
    ++ (if digit1 ≠ 48 ∨ digit2 ≠ 48 then UART_putc digit2 else [])
    ++ UART_putc (val + 48)

/-- `UART_putS8(int8_t val)`. -/
def UART_putS8 (val : Int) : List Nat :=
  if toU16 val &&& 0x80 ≠ 0 then
    UART_putc 45 ++ UART_putc (toU8 (toS8 (-(val - 1))))
  else
    UART_putc (toU8 val)

/-- `UART_putU16(uint16_t val)`. -/
def UART_putU16 (val : Nat) : List Nat :=
  let r1 := digitLoop 10000 (by decide) 65536 val 48
  let digit1 := r1.2
  let r2 := digitLoop 1000 (by decide) 65536 r1.1 48
  let digit2 := r2.2
  let r3 := digitLoop 100 (by decide) 65536 r2.1 48
  let digit3 := r3.2
  let r4 := digitLoop 10 (by decide) 65536 r3.1 48
  let digit4 := r4.2
  let val := r4.1
  let prevprint := false
  let out1 := if digit1 ≠ 48 then UART_putc digit1 else []
  let prevprint := if digit1 ≠ 48 then true else prevprint
  let out2 := if prevprint = true ∨ digit2 ≠ 48 then UART_putc digit2 else []
  let prevprint := if prevprint = true ∨ digit2 ≠ 48 then true else prevprint
  let out3 := if prevprint = true ∨ digit3 ≠ 48 then UART_putc digit3 else []
  let prevprint := if prevprint = true ∨ digit3 ≠ 48 then true else prevprint
  let out4 := if prevprint = true ∨ digit4 ≠ 48 then UART_putc digit4 else []
  out1 ++ out2 ++ out3 ++ out4 ++ UART_putc (val + 48)

/-- `UART_putS16(int16_t val)`. -/
def UART_putS16 (val : Int) : List Nat :=
  if toU16 val &&& 0x8000 ≠ 0 then
    UART_putc 45 ++ UART_putU16 (toU16 (toS16 (~~~ (toS16 (val - 1)))))
  else
    UART_putU16 (toU16 val)

/-! ## Receive side -/

/-- The C library `strlen` on the memory from the pointer onwards: the index of
the first zero byte, `none` when the modelled memory holds none. -/
def strlen : List Nat → Option Nat
  | [] => none
  | b :: s => if b = 0 then some 0 else (strlen s).map (fun n => n + 1)

/-- What `UART_getLine` leaves behind: the memory at `buffer`, the received
bytes it did not consume, and the final value of `bufferIndex`. -/
structure LineState where
  buffer : List Nat
  rest : List Nat
  bufferIndex : Nat
deriving DecidableEq, Repr

/-- The `do ... while (bufferIndex < bufferLength && c != '\r')` loop of
`UART_getLine`.  `rx` holds the bytes the receiver delivers; when it is
exhausted `UART_getc` never returns (`none`). -/
def getLineLoop (bufferLength : Int) : List Nat → List Nat → Nat → Option LineState
  | [], _, _ => none
  | b :: rx, buffer, bufferIndex =>
    let c := toS8 b
    let buffer := buffer.set bufferIndex (toU8 c)
    let bufferIndex := (bufferIndex + 1) % 256
    if (bufferIndex : Int) < bufferLength ∧ c ≠ 13 then
      getLineLoop bufferLength rx buffer bufferIndex
    else
      some ⟨buffer, rx, bufferIndex⟩

/-- `UART_getLine(char *buffer)` with the received bytes `rx`. -/
def UART_getLine (rx : List Nat) (buffer : List Nat) : Option LineState :=
  match strlen buffer with
  | none => none
  | some n =>
    let bufferLength := toS16 n
    match getLineLoop bufferLength rx buffer 0 with
    | none => none
    | some st => some ⟨st.buffer.set st.bufferIndex 0, st.rest, st.bufferIndex⟩

/-! ## Reference notions used to state the properties -/

/-- The canonical decimal text of `v` as a list of ASCII codes: the characters
of `Nat.toDigits 10 v`, most significant digit first, `"0"` for zero. -/
def decimalText (v : Nat) : List Nat := (Nat.toDigits 10 v).map Char.toNat

/-- The canonical signed decimal text: a `'-'` before the magnitude of a
negative number. -/
def signedDecimalText (v : Int) : List Nat :=
  if v < 0 then 45 :: decimalText (-v).toNat else decimalText v.toNat

/-- The ASCII code of the uppercase hexadecimal digit of a nibble `n < 16`. -/
def hexChar (n : Nat) : Nat := if n < 10 then 48 + n else 55 + n

/-- The byte `c` is one of `'0'..'9'`, `'A'..'F'`. -/
def isUpperHexDigit (c : Nat) : Prop := (48 ≤ c ∧ c ≤ 57) ∨ (65 ≤ c ∧ c ≤ 70)

instance (c : Nat) : Decidable (isUpperHexDigit c) := by
  unfold isUpperHexDigit
  infer_instance

/-- The value of an uppercase hexadecimal digit character. -/
def hexValue (c : Nat) : Nat := if c ≤ 57 then c - 48 else c - 55

/-- Reading a list of hexadecimal digit characters as a base-16 numeral, most
significant digit first. -/
def parseHex (cs : List Nat) : Nat := cs.foldl (fun acc c => acc * 16 + hexValue c) 0

/-- The bytes that `UART_puts` transmits rather than stops at: `1..127`. -/
def isPlainChar (b : Nat) : Bool := decide (1 ≤ b ∧ b ≤ 127)

/-! ## Initialisation -/

/-- The bit numbers that `UART_init` takes from the device header `<avr/io.h>`,
which is not part of the repository. -/
structure IoBits where
  RXEN : Nat
  TXEN : Nat
  UCSZ1 : Nat
  UCSZ0 : Nat

/-- The 8-bit registers written by `UART_init`. -/
structure BaudRegs where
  UBRRH : Nat
  UBRR0L : Nat
  UCSRB : Nat
  UCSRC : Nat
deriving DecidableEq, Repr

/-- The divisor `(baudrate * 16) - 1` of `UART_init`, in `uint32_t` arithmetic. -/
def ubrrDenominator (baudrate : Nat) : Nat :=
  ((baudrate * 16) % 4294967296 + 4294967296 - 1) % 4294967296

/-- The value `ubrr_val` of `UART_init`, in `uint32_t` arithmetic with truncating
division; `none` when the divisor is zero. -/
def ubrrVal (baudrate cpu_speed : Nat) : Option Nat :=
  if ubrrDenominator baudrate = 0 then none
  else some (((cpu_speed + baudrate) % 4294967296) / ubrrDenominator baudrate)

/-- `UART_init(uint32_t baudrate, uint32_t cpu_speed)`: the registers it writes. -/
def UART_init (io : IoBits) (baudrate cpu_speed : Nat) : Option BaudRegs :=
  (ubrrVal baudrate cpu_speed).map fun ubrr_val =>
    { UBRRH := (ubrr_val >>> 8) % 256
      UBRR0L := ubrr_val % 256
      UCSRB := ((1 <<< io.RXEN) ||| (1 <<< io.TXEN)) % 256
      UCSRC := ((1 <<< io.UCSZ1) ||| (1 <<< io.UCSZ0)) % 256 }

/-! ## Receive side with the written buffer indices recorded -/

/-- The loop of `UART_getLine` as in `getLineLoop`, which also records, in order,
the buffer index of every `buffer[bufferIndex++] = c`.  The indices are recorded
also when the receiver runs dry and the loop never ends. -/
def getLineLoopTrace (bufferLength : Int) :
    List Nat → List Nat → Nat → Option LineState × List Nat
  | [], _, _ => (none, [])
  | b :: rx, buffer, bufferIndex =>
    let c := toS8 b
    let written := bufferIndex
    let buffer := buffer.set bufferIndex (toU8 c)
    let bufferIndex := (bufferIndex + 1) % 256
    if (bufferIndex : Int) < bufferLength ∧ c ≠ 13 then
      let r := getLineLoopTrace bufferLength rx buffer bufferIndex
      (r.1, written :: r.2)
    else
      (some ⟨buffer, rx, bufferIndex⟩, [written])

/-- `UART_getLine` as in `UART_getLine`, with the buffer indices it writes to: those
of the loop, then that of `buffer[bufferIndex] = 0` when the loop ends. -/
def UART_getLineTrace (rx : List Nat) (buffer : List Nat) : Option LineState × List Nat :=
  match strlen buffer with
  | none => (none, [])
  | some n =>
    let bufferLength := toS16 n
    let r := getLineLoopTrace bufferLength rx buffer 0
    match r.1 with
    | none => (none, r.2)
    | some st =>
      (some ⟨st.buffer.set st.bufferIndex 0, st.rest, st.bufferIndex⟩, r.2 ++ [st.bufferIndex])

/-! ## Reading decimal text back -/

/-- The byte `c` is one of `'0'..'9'`. -/
def isDecimalDigit (c : Nat) : Prop := 48 ≤ c ∧ c ≤ 57

/-- Reading a list of decimal digit characters as a base-10 numeral, most
significant digit first. -/
def parseDecimal (cs : List Nat) : Nat := cs.foldl (fun acc c => acc * 10 + (c - 48)) 0

/-! ## Auxiliary lemmas -/

theorem digitLoop_eq (d : Nat) (hd : 0 < d) (m : Nat) :
    ∀ val digit, val < m → digit < 256 →
      digitLoop d hd m val digit = (val % d, (digit + val / d) % 256) := by
  intro val
  induction val using Nat.strong_induction_on with
  | _ val ih =>
    intro digit hv hdg
    rw [digitLoop]
    split
    · rename_i hge
      have h1 : (val - d) % m = val - d := Nat.mod_eq_of_lt (by omega)
      rw [h1, ih (val - d) (by omega) _ (by omega) (Nat.mod_lt _ (by decide))]
      rw [Nat.mod_eq_sub_mod hge, Nat.div_eq_sub_div hd hge]
      congr 1
      omega
    · rename_i hlt
      have hlt : val < d := by omega
      rw [Nat.mod_eq_of_lt hlt, Nat.div_eq_of_lt hlt, Nat.add_zero, Nat.mod_eq_of_lt hdg]

theorem toDigitsCore_step (fuel n : Nat) (ds : List Char) (h : 0 < fuel) :
    Nat.toDigitsCore 10 fuel n ds =
      if n / 10 = 0 then Nat.digitChar (n % 10) :: ds
      else Nat.toDigitsCore 10 (fuel - 1) (n / 10) (Nat.digitChar (n % 10) :: ds) := by
  cases fuel with
  | zero => omega
  | succ f => simp [Nat.toDigitsCore]

theorem digitChar_toNat (n : Nat) (h : n < 10) : (Nat.digitChar n).toNat = n + 48 := by
  revert n
  decide

theorem putU16_digits (v : Nat) (hv : v < 65536) :
    UART_putU16 v =
      (if v / 10000 ≠ 0 then [48 + v / 10000] else [])
      ++ (if v / 1000 ≠ 0 then [48 + v / 1000 % 10] else [])
      ++ (if v / 100 ≠ 0 then [48 + v / 100 % 10] else [])
      ++ (if v / 10 ≠ 0 then [48 + v / 10 % 10] else [])
      ++ [48 + v % 10] := by
  unfold UART_putU16
  simp only []
  rw [digitLoop_eq _ _ _ v 48 hv (by decide)]
  simp only []
  rw [digitLoop_eq _ _ _ (v % 10000) 48 (by omega) (by decide)]
  simp only []
  rw [digitLoop_eq _ _ _ (v % 10000 % 1000) 48 (by omega) (by decide)]
  simp only []
  rw [digitLoop_eq _ _ _ (v % 10000 % 1000 % 100) 48 (by omega) (by decide)]
  simp only [UART_putc]
  have a1 : v % 10000 % 1000 = v % 1000 := Nat.mod_mod_of_dvd v (by decide)
  have a2 : v % 1000 % 100 = v % 100 := Nat.mod_mod_of_dvd v (by decide)
  have a3 : v % 100 % 10 = v % 10 := Nat.mod_mod_of_dvd v (by decide)
  have q2 : v % 10000 / 1000 = v / 1000 % 10 := Nat.mod_mul_right_div_self v 1000 10
  have q3 : v % 1000 / 100 = v / 100 % 10 := Nat.mod_mul_right_div_self v 100 10
  have q4 : v % 100 / 10 = v / 10 % 10 := Nat.mod_mul_right_div_self v 10 10
  rw [a1, a2, a3, q2, q3, q4]
  have b1 : v / 10000 < 7 := by omega
  have b2 : v / 1000 % 10 < 10 := Nat.mod_lt _ (by decide)
  have b3 : v / 100 % 10 < 10 := Nat.mod_lt _ (by decide)
  have b4 : v / 10 % 10 < 10 := Nat.mod_lt _ (by decide)
  have b5 : v % 10 < 10 := Nat.mod_lt _ (by decide)
  have m1 : (48 + v / 10000) % 256 = 48 + v / 10000 := by omega
  have m2 : (48 + v / 1000 % 10) % 256 = 48 + v / 1000 % 10 := by omega
  have m3 : (48 + v / 100 % 10) % 256 = 48 + v / 100 % 10 := by omega
  have m4 : (48 + v / 10 % 10) % 256 = 48 + v / 10 % 10 := by omega
  have m5 : (v % 10 + 48) % 256 = 48 + v % 10 := by omega
  simp only [m1, m2, m3, m4, m5]
  by_cases h1 : v / 10000 = 0
  · by_cases h2 : v / 1000 = 0
    · have h2m : v / 1000 % 10 = 0 := by omega
      by_cases h3 : v / 100 = 0
      · have h3m : v / 100 % 10 = 0 := by omega
        by_cases h4 : v / 10 = 0
        · have h4m : v / 10 % 10 = 0 := by omega
          simp [h1, h2, h2m, h3, h3m, h4, h4m]
        · have h4m : v / 10 % 10 ≠ 0 := by omega
          simp [h1, h2, h2m, h3, h3m, h4, h4m]
      · have h3m : v / 100 % 10 ≠ 0 := by omega
        have h4 : v / 10 ≠ 0 := by omega
        simp [h1, h2, h2m, h3, h3m, h4]
    · have h2m : v / 1000 % 10 ≠ 0 := by omega
      have h3 : v / 100 ≠ 0 := by omega
      have h4 : v / 10 ≠ 0 := by omega
      simp [h1, h2, h2m, h3, h4]
  · have h2 : v / 1000 ≠ 0 := by omega
    have h3 : v / 100 ≠ 0 := by omega
    have h4 : v / 10 ≠ 0 := by omega
    simp [h1, h2, h3, h4]

theorem toDigits_eq (v : Nat) (hv : v < 65536) :
    decimalText v =
      (if v / 10000 ≠ 0 then [48 + v / 10000] else [])
      ++ (if v / 1000 ≠ 0 then [48 + v / 1000 % 10] else [])
      ++ (if v / 100 ≠ 0 then [48 + v / 100 % 10] else [])
      ++ (if v / 10 ≠ 0 then [48 + v / 10 % 10] else [])
      ++ [48 + v % 10] := by
  unfold decimalText Nat.toDigits
  rw [toDigitsCore_step _ _ _ (by omega)]
  by_cases h4 : v / 10 = 0
  · have h1 : v / 10000 = 0 := by omega
    have h2 : v / 1000 = 0 := by omega
    have h3 : v / 100 = 0 := by omega
    simp [h1, h2, h3, h4, digitChar_toNat (v % 10) (Nat.mod_lt _ (by decide)), Nat.add_comm]
  · rw [if_neg h4, toDigitsCore_step _ _ _ (by omega)]
    have d3 : v / 10 / 10 = v / 100 := Nat.div_div_eq_div_mul v 10 10
    rw [d3]
    by_cases h3 : v / 100 = 0
    · have h1 : v / 10000 = 0 := by omega
      have h2 : v / 1000 = 0 := by omega
      simp [h1, h2, h3, h4, digitChar_toNat _ (Nat.mod_lt _ (by decide : 0 < 10)), Nat.add_comm]
    · rw [if_neg h3, toDigitsCore_step _ _ _ (by omega)]
      have d2 : v / 100 / 10 = v / 1000 := Nat.div_div_eq_div_mul v 100 10
      rw [d2]
      by_cases h2 : v / 1000 = 0
      · have h1 : v / 10000 = 0 := by omega
        simp [h1, h2, h3, h4, digitChar_toNat _ (Nat.mod_lt _ (by decide : 0 < 10)), Nat.add_comm]
      · rw [if_neg h2, toDigitsCore_step _ _ _ (by omega)]
        have d1 : v / 1000 / 10 = v / 10000 := Nat.div_div_eq_div_mul v 1000 10
        rw [d1]
        by_cases h1 : v / 10000 = 0
        · simp [h1, h2, h3, h4, digitChar_toNat _ (Nat.mod_lt _ (by decide : 0 < 10)), Nat.add_comm]
        · rw [if_neg h1, toDigitsCore_step _ _ _ (by omega)]
          have d0 : v / 10000 / 10 = 0 := by omega
          have e0 : v / 10000 % 10 = v / 10000 := by omega
          simp [h1, h2, h3, h4, d0, e0, digitChar_toNat _ (Nat.mod_lt _ (by decide : 0 < 10)),
            digitChar_toNat (v / 10000) (by omega), Nat.add_comm]

set_option maxRecDepth 100000 in
theorem puthex8_eq : ∀ v, v < 256 → UART_puthex8 v = [hexChar (v / 16), hexChar (v % 16)] := by
  decide

theorem hexChar_isUpper : ∀ n, n < 16 → isUpperHexDigit (hexChar n) := by decide
theorem hexValue_hexChar : ∀ n, n < 16 → hexValue (hexChar n) = n := by decide

theorem puthex16_eq (v : Nat) (hv : v < 65536) :
    UART_puthex16 v = UART_puthex8 (v / 256) ++ UART_puthex8 (v % 256) := by
  unfold UART_puthex16
  have h1 : v >>> 8 = v / 256 := Nat.shiftRight_eq_div_pow v 8
  have h2 : v &&& 0x00FF = v % 256 := Nat.and_pow_two_sub_one_eq_mod v 8
  rw [h1, h2, Nat.mod_mod, Nat.mod_eq_of_lt (by omega : v / 256 < 256)]

theorem puthex32_eq (v : Nat) (hv : v < 4294967296) :
    UART_puthex32 v = UART_puthex16 (v / 65536) ++ UART_puthex16 (v % 65536) := by
  unfold UART_puthex32
  have h1 : v >>> 16 = v / 65536 := Nat.shiftRight_eq_div_pow v 16
  have h2 : v &&& 0x0000FFFF = v % 65536 := Nat.and_pow_two_sub_one_eq_mod v 16
  rw [h1, h2, Nat.mod_mod, Nat.mod_eq_of_lt (by omega : v / 65536 < 65536)]

theorem puthex32_digits (v : Nat) (hv : v < 4294967296) :
    UART_puthex32 v =
      [hexChar (v / 268435456 % 16), hexChar (v / 16777216 % 16), hexChar (v / 1048576 % 16),
       hexChar (v / 65536 % 16), hexChar (v / 4096 % 16), hexChar (v / 256 % 16),
       hexChar (v / 16 % 16), hexChar (v % 16)] := by
  rw [puthex32_eq v hv, puthex16_eq _ (by omega), puthex16_eq _ (Nat.mod_lt _ (by decide)),
    puthex8_eq _ (by omega), puthex8_eq _ (Nat.mod_lt _ (by decide)),
    puthex8_eq _ (by omega), puthex8_eq _ (Nat.mod_lt _ (by decide))]
  have e7 : v / 65536 / 256 / 16 = v / 268435456 % 16 := by omega
  have e6 : v / 65536 / 256 % 16 = v / 16777216 % 16 := by omega
  have e5 : v / 65536 % 256 / 16 = v / 1048576 % 16 := by omega
  have e4 : v / 65536 % 256 % 16 = v / 65536 % 16 := by omega
  have e3 : v % 65536 / 256 / 16 = v / 4096 % 16 := by omega
  have e2 : v % 65536 / 256 % 16 = v / 256 % 16 := by omega
  have e1 : v % 65536 % 256 / 16 = v / 16 % 16 := by omega
  have e0 : v % 65536 % 256 % 16 = v % 16 := by omega
  rw [e7, e6, e5, e4, e3, e2, e1, e0]
  rfl

theorem not_int (x : Int) : ~~~x = -x - 1 := by
  cases x with
  | ofNat n =>
    show Int.negSucc n = -(n : Int) - 1
    rw [Int.negSucc_eq]; omega
  | negSucc n =>
    show (n : Int) = -(Int.negSucc n) - 1
    rw [Int.negSucc_eq]; omega

theorem and_two_pow_ne_zero (n k : Nat) : n &&& 2 ^ k ≠ 0 ↔ n / 2 ^ k % 2 = 1 := by
  constructor
  · intro h
    by_contra hc
    apply h
    apply Nat.eq_of_testBit_eq
    intro i
    rw [Nat.testBit_and, Nat.testBit_two_pow, Nat.zero_testBit]
    by_cases hk : k = i
    · subst hk
      have : n.testBit k = false := by
        rw [Nat.testBit_to_div_mod]; simpa using hc
      simp [this]
    · simp [hk]
  · intro h h0
    have : (n &&& 2 ^ k).testBit k = true := by
      rw [Nat.testBit_and, Nat.testBit_two_pow_self, Nat.testBit_to_div_mod]
      simp [h]
    rw [h0, Nat.zero_testBit] at this
    exact Bool.noConfusion this

theorem sign16_iff (v : Int) (hlo : -32768 ≤ v) (hhi : v ≤ 32767) :
    toU16 v &&& 0x8000 ≠ 0 ↔ v < 0 := by
  rw [show (0x8000 : Nat) = 2 ^ 15 from rfl, and_two_pow_ne_zero]
  unfold toU16
  omega

theorem negate16 (v : Int) (hlo : -32767 ≤ v) (hneg : v < 0) :
    toU16 (toS16 (~~~ (toS16 (v - 1)))) = (-v).toNat := by
  rw [not_int]
  unfold toU16 toS16
  omega

theorem toS8_pos (b : Nat) (hb : b < 256) : toS8 b > 0 ↔ 1 ≤ b ∧ b ≤ 127 := by
  unfold toS8
  omega

theorem toU8_toS8 (b : Nat) (hb : b < 256) : toU8 (toS8 b) = b := by
  unfold toU8 toS8
  omega

theorem toS8_eq_cr (b : Nat) (hb : b < 256) : toS8 b = 13 ↔ b = 13 := by
  unfold toS8
  omega

theorem puts_takeWhile : ∀ s : List Nat, (∀ b ∈ s, b < 256) → 0 ∈ s →
    UART_puts s = some (s.takeWhile isPlainChar) := by
  intro s
  induction s with
  | nil => intro _ h; simp at h
  | cons b s ih =>
    intro hb hz
    have hb0 : b < 256 := hb b (List.mem_cons_self _ _)
    rw [UART_puts]
    by_cases hp : 1 ≤ b ∧ b ≤ 127
    · have hz2 : 0 ∈ s := by
        rcases List.mem_cons.mp hz with h | h
        · omega
        · exact h
      rw [if_pos ((toS8_pos b hb0).mpr hp), ih (fun x hx => hb x (List.mem_cons_of_mem _ hx)) hz2,
        toU8_toS8 b hb0]
      have : isPlainChar b = true := by simp [isPlainChar, hp]
      simp [List.takeWhile, this, UART_putc, Nat.mod_eq_of_lt hb0]
    · rw [if_neg (fun h => hp ((toS8_pos b hb0).mp h))]
      have : isPlainChar b = false := by simp [isPlainChar]; omega
      simp [List.takeWhile, this]

theorem strlen_spec : ∀ (buffer : List Nat) (n : Nat), strlen buffer = some n →
    n < buffer.length := by
  intro buffer
  induction buffer with
  | nil => intro n h; simp [strlen] at h
  | cons b s ih =>
    intro n h
    rw [strlen] at h
    by_cases hb : b = 0
    · rw [if_pos hb] at h
      cases h
      simp
    · rw [if_neg hb] at h
      cases hs : strlen s with
      | none => rw [hs] at h; simp at h
      | some k =>
        rw [hs] at h
        simp at h
        have := ih k hs
        simp
        omega

theorem getLineLoop_run (len : Int) : ∀ (pre : List Nat) (c : Nat) (post done todo : List Nat),
    (∀ b ∈ pre, b < 256 ∧ b ≠ 13) → c < 256 →
    done.length + pre.length + 1 ≤ 255 → pre.length + 1 ≤ todo.length →
    ((done.length + pre.length : Nat) : Int) < len →
    (c = 13 ∨ len ≤ ((done.length + pre.length + 1 : Nat) : Int)) →
    getLineLoop len (pre ++ c :: post) (done ++ todo) done.length
      = some ⟨done ++ pre ++ c :: todo.drop (pre.length + 1), post,
          done.length + pre.length + 1⟩ := by
  intro pre
  induction pre with
  | nil =>
    intro c post done todo _ hc h255 htodo hlt hstop
    cases todo with
    | nil => simp at htodo
    | cons t todo =>
      simp only [List.nil_append, getLineLoop, toU8_toS8 c hc]
      have hidx : (done.length + 1) % 256 = done.length + 1 := by
        simp at h255; omega
      rw [hidx]
      have hcond : ¬ (((done.length + 1 : Nat) : Int) < len ∧ toS8 c ≠ 13) := by
        rintro ⟨h1, h2⟩
        rcases hstop with h | h
        · exact h2 ((toS8_eq_cr c hc).mpr h)
        · simp at h; omega
      rw [if_neg hcond]
      simp
  | cons b pre ih =>
    intro c post done todo hpre hc h255 htodo hlt hstop
    cases todo with
    | nil => simp at htodo
    | cons t todo =>
      have hb := hpre b (List.mem_cons_self _ _)
      simp only [List.cons_append, getLineLoop, toU8_toS8 b hb.1]
      simp only [List.length_cons] at h255 htodo hlt hstop
      have hidx : (done.length + 1) % 256 = done.length + 1 := by omega
      rw [hidx]
      have hcond : ((done.length + 1 : Nat) : Int) < len ∧ toS8 b ≠ 13 := by
        refine ⟨by omega, ?_⟩
        intro h
        exact hb.2 ((toS8_eq_cr b hb.1).mp h)
      rw [if_pos hcond]
      have hset : (done ++ t :: todo).set done.length b = (done ++ [b]) ++ todo := by
        simp
      rw [hset]
      have hl : (done ++ [b]).length = done.length + 1 := by simp
      have := ih c post (done ++ [b]) todo (fun x hx => hpre x (List.mem_cons_of_mem _ hx)) hc
        (by rw [hl]; omega) (by omega) (by rw [hl]; omega)
        (by rw [hl]; rcases hstop with h | h; exact Or.inl h; right; omega)
      rw [hl] at this
      refine this.trans ?_
      simp [Nat.add_assoc, Nat.add_comm 1 pre.length]


theorem toS16_small (n : Nat) (h : n ≤ 255) : toS16 n = n := by
  unfold toS16
  omega

theorem getLine_run (pre : List Nat) (c : Nat) (post buffer : List Nat) (L : Nat)
    (hpre : ∀ b ∈ pre, b < 256 ∧ b ≠ 13) (hc : c < 256)
    (hL : strlen buffer = some L) (hL255 : L ≤ 255) (hlt : pre.length < L)
    (hstop : c = 13 ∨ pre.length + 1 = L) :
    UART_getLine (pre ++ c :: post) buffer
      = some ⟨pre ++ c :: 0 :: buffer.drop (pre.length + 2), post, pre.length + 1⟩ := by
  have hbuf := strlen_spec buffer L hL
  have hrun := getLineLoop_run (toS16 L) pre c post [] buffer hpre hc
    (by simp; omega) (by omega)
    (by rw [toS16_small L hL255]; simp; omega)
    (by
      rw [toS16_small L hL255]
      rcases hstop with h | h
      · exact Or.inl h
      · right; simp; omega)
  simp only [List.nil_append, List.length_nil, Nat.zero_add] at hrun
  unfold UART_getLine
  rw [hL]
  simp only [hrun]
  have hd : buffer.drop (pre.length + 1)
      = buffer[pre.length + 1] :: buffer.drop (pre.length + 2) :=
    List.drop_eq_getElem_cons (by omega)
  rw [hd]
  have hset : (pre ++ c :: buffer[pre.length + 1] :: buffer.drop (pre.length + 2)).set
      (pre.length + 1) 0 = pre ++ c :: 0 :: buffer.drop (pre.length + 2) := by
    rw [List.set_append_right _ _ (by omega)]
    have h1 : pre.length + 1 - pre.length = 1 := by omega
    rw [h1]
    rfl
  rw [hset]

theorem getLine_index (rx buffer : List Nat) (L n : Nat)
    (hbytes : ∀ b ∈ rx, b < 256) (hL : strlen buffer = some L) (hL255 : L ≤ 255)
    (hn1 : 1 ≤ n) (hnL : n ≤ L) (hlen : n ≤ rx.length)
    (hpre : ∀ i, i + 1 < n → rx[i]? ≠ some 13)
    (hstop : rx[n - 1]? = some 13 ∨ n = L) :
    UART_getLine rx buffer
      = some ⟨rx.take n ++ 0 :: buffer.drop (n + 1), rx.drop n, n⟩ := by
  obtain ⟨k, rfl⟩ : ∃ k, n = k + 1 := ⟨n - 1, by omega⟩
  have hk : k < rx.length := by omega
  have hsplit : rx = rx.take k ++ rx[k] :: rx.drop (k + 1) := by
    rw [← List.drop_eq_getElem_cons hk, List.take_append_drop]
  have htl : (rx.take k).length = k := by
    rw [List.length_take]; omega
  have hpre2 : ∀ b ∈ rx.take k, b < 256 ∧ b ≠ 13 := by
    intro b hb
    refine ⟨hbytes b (List.mem_of_mem_take hb), ?_⟩
    rintro rfl
    obtain ⟨i, hi, he⟩ := List.mem_iff_getElem.mp hb
    rw [List.getElem_take] at he
    rw [htl] at hi
    apply hpre i (by omega)
    rw [List.getElem?_eq_getElem (by omega), he]
  have hstop2 : rx[k] = 13 ∨ (rx.take k).length + 1 = L := by
    rcases hstop with h | h
    · left
      rw [Nat.add_sub_cancel, List.getElem?_eq_getElem hk] at h
      exact Option.some.inj h
    · right; rw [htl]; exact h
  have hrun := getLine_run (rx.take k) rx[k] (rx.drop (k + 1)) buffer L hpre2
    (hbytes _ (List.getElem_mem _)) hL hL255 (by rw [htl]; omega) hstop2
  rw [← hsplit, htl] at hrun
  have htake : rx.take (k + 1) = rx.take k ++ [rx[k]] := by
    rw [List.take_succ, List.getElem?_eq_getElem hk]
    rfl
  rw [hrun, htake, List.append_assoc]
  rfl

theorem takeWhile_stop : ∀ s : List Nat, 0 ∈ s →
    ∃ c rest, s = s.takeWhile isPlainChar ++ c :: rest ∧ isPlainChar c = false := by
  intro s
  induction s with
  | nil => intro h; simp at h
  | cons b s ih =>
    intro hz
    cases hp : isPlainChar b with
    | false => exact ⟨b, s, by simp [List.takeWhile, hp], hp⟩
    | true =>
      have hz2 : 0 ∈ s := by
        rcases List.mem_cons.mp hz with h | h
        · rw [← h] at hp
          exact absurd hp (by decide)
        · exact h
      obtain ⟨c, rest, he, hc⟩ := ih hz2
      refine ⟨c, rest, ?_, hc⟩
      simp only [List.takeWhile, hp, List.cons_append]
      rw [← he]

theorem putU8_digits (v : Nat) (hv : v < 256) :
    UART_putU8 v
      = (if 10 ≤ v then [48 + v / 100, 48 + v / 10 % 10] else [48]) ++ [48 + v % 10] := by
  unfold UART_putU8
  simp only []
  rw [digitLoop_eq _ _ _ v 48 hv (by decide)]
  simp only []
  rw [digitLoop_eq _ _ _ (v % 100) 48 (by omega) (by decide)]
  simp only [UART_putc]
  have a1 : v % 100 % 10 = v % 10 := Nat.mod_mod_of_dvd v (by decide)
  have q1 : v % 100 / 10 = v / 10 % 10 := Nat.mod_mul_right_div_self v 10 10
  rw [a1, q1]
  have b1 : v / 100 < 3 := by omega
  have b2 : v / 10 % 10 < 10 := Nat.mod_lt _ (by decide)
  have b3 : v % 10 < 10 := Nat.mod_lt _ (by decide)
  have m1 : (48 + v / 100) % 256 = 48 + v / 100 := by omega
  have m2 : (48 + v / 10 % 10) % 256 = 48 + v / 10 % 10 := by omega
  have m3 : (v % 10 + 48) % 256 = 48 + v % 10 := by omega
  simp only [m1, m2, m3]
  by_cases h10 : 10 ≤ v
  · by_cases h100 : v / 100 = 0
    · have h2 : v / 10 % 10 ≠ 0 := by omega
      simp [h10, h100, h2]
    · simp [h10, h100]
  · have h100 : v / 100 = 0 := by omega
    have h2 : v / 10 % 10 = 0 := by omega
    simp [h10, h100, h2]

theorem ubrrDenominator_ne_zero (baudrate : Nat) : ubrrDenominator baudrate ≠ 0 := by
  unfold ubrrDenominator
  omega

theorem ubrrVal_eq (baudrate cpu_speed : Nat) :
    ubrrVal baudrate cpu_speed
      = some ((cpu_speed + baudrate) % 4294967296 / ubrrDenominator baudrate) := by
  rw [ubrrVal, if_neg (ubrrDenominator_ne_zero baudrate)]

theorem init_eq (io : IoBits) (baudrate cpu_speed : Nat) :
    UART_init io baudrate cpu_speed
      = some
          { UBRRH := ((cpu_speed + baudrate) % 4294967296 / ubrrDenominator baudrate) / 256 % 256
            UBRR0L := ((cpu_speed + baudrate) % 4294967296 / ubrrDenominator baudrate) % 256
            UCSRB := ((1 <<< io.RXEN) ||| (1 <<< io.TXEN)) % 256
            UCSRC := ((1 <<< io.UCSZ1) ||| (1 <<< io.UCSZ0)) % 256 } := by
  unfold UART_init
  rw [ubrrVal_eq, Option.map_some']
  rw [show ∀ x : Nat, x >>> 8 = x / 256 from fun x => Nat.shiftRight_eq_div_pow x 8]

theorem getLineLoopTrace_fst (len : Int) : ∀ (rx buffer : List Nat) (idx : Nat),
    (getLineLoopTrace len rx buffer idx).1 = getLineLoop len rx buffer idx := by
  intro rx
  induction rx with
  | nil => intro buffer idx; rfl
  | cons b rx ih =>
    intro buffer idx
    simp only [getLineLoopTrace, getLineLoop]
    split
    · exact ih _ _
    · rfl

theorem getLineTrace_fst (rx buffer : List Nat) :
    (UART_getLineTrace rx buffer).1 = UART_getLine rx buffer := by
  unfold UART_getLineTrace UART_getLine
  cases strlen buffer with
  | none => rfl
  | some n =>
    simp only [getLineLoopTrace_fst]
    cases getLineLoop (toS16 n) rx buffer 0 with
    | none => rfl
    | some st => rfl

theorem getLineLoopTrace_bound (L : Nat) (hL : L ≤ 255) : ∀ (rx buffer : List Nat) (idx : Nat),
    idx < L →
    (∀ i ∈ (getLineLoopTrace L rx buffer idx).2, i < L)
      ∧ ∀ st, (getLineLoopTrace L rx buffer idx).1 = some st →
          idx < st.bufferIndex ∧ st.bufferIndex ≤ L
            ∧ ∀ i, st.bufferIndex ≤ i → st.buffer[i]? = buffer[i]? := by
  intro rx
  induction rx with
  | nil =>
    intro buffer idx _
    simp [getLineLoopTrace]
  | cons b rx ih =>
    intro buffer idx hidx
    have hwrap : (idx + 1) % 256 = idx + 1 := by omega
    simp only [getLineLoopTrace, hwrap]
    split
    · rename_i hcond
      have hlt : idx + 1 < L := by
        have := hcond.1
        omega
      obtain ⟨hw, hst⟩ := ih (buffer.set idx (toU8 (toS8 b))) (idx + 1) hlt
      refine ⟨?_, ?_⟩
      · intro i hi
        rcases List.mem_cons.mp hi with h | h
        · omega
        · exact hw i h
      · intro st hs
        obtain ⟨h1, h2, h3⟩ := hst st hs
        refine ⟨by omega, h2, ?_⟩
        intro i hi
        rw [h3 i hi, List.getElem?_set_ne (by omega)]
    · refine ⟨?_, ?_⟩
      · intro i hi
        simp only [List.mem_singleton] at hi
        omega
      · intro st hs
        simp only [Option.some.injEq] at hs
        subst hs
        refine ⟨by simp, by simp; omega, ?_⟩
        intro i hi
        simp only at hi
        simp only
        rw [List.getElem?_set_ne (by omega)]

theorem strlen_replicate : ∀ n : Nat, strlen (List.replicate n 1 ++ [0]) = some n := by
  intro n
  induction n with
  | zero => rfl
  | succ n ih =>
    rw [List.replicate_succ, List.cons_append, strlen, if_neg (by decide), ih]
    rfl

theorem getLine_one_pass (b : Nat) (rx buffer : List Nat) (n : Nat)
    (hn : strlen buffer = some n) (hlen : toS16 n ≤ 1) :
    UART_getLine (b :: rx) buffer
      = some ⟨(buffer.set 0 (toU8 (toS8 b))).set 1 0, rx, 1⟩ := by
  unfold UART_getLine
  rw [hn]
  simp only [getLineLoop]
  have hcond : ¬ ((((0 + 1) % 256 : Nat) : Int) < toS16 n ∧ toS8 b ≠ 13) := by
    intro h
    have := h.1
    simp at this
    omega
  rw [if_neg hcond]

theorem split_at_cr (rx : List Nat) (k : Nat) (hbytes : ∀ b ∈ rx, b < 256)
    (hcr : rx[k]? = some 13) (hfirst : ∀ i, i < k → rx[i]? ≠ some 13) :
    rx = rx.take k ++ 13 :: rx.drop (k + 1) ∧ (rx.take k).length = k
      ∧ ∀ b ∈ rx.take k, b < 256 ∧ b ≠ 13 := by
  have hk : k < rx.length := by
    by_contra h
    rw [List.getElem?_eq_none (by omega)] at hcr
    cases hcr
  have hget : rx[k] = 13 := by
    rw [List.getElem?_eq_getElem hk] at hcr
    exact Option.some.inj hcr
  have htl : (rx.take k).length = k := by
    rw [List.length_take]; omega
  refine ⟨?_, htl, ?_⟩
  · rw [← hget, ← List.drop_eq_getElem_cons hk, List.take_append_drop]
  · intro b hb
    refine ⟨hbytes b (List.mem_of_mem_take hb), ?_⟩
    rintro rfl
    obtain ⟨i, hi, he⟩ := List.mem_iff_getElem.mp hb
    rw [List.getElem_take] at he
    rw [htl] at hi
    apply hfirst i hi
    rw [List.getElem?_eq_getElem (by omega), he]

theorem getLineLoopTrace_wrap (len : Int) (hlen : 256 ≤ len) :
    ∀ (pre post buffer : List Nat) (idx : Nat),
    (∀ b ∈ pre, b < 256 ∧ b ≠ 13) → idx < 256 →
    ∃ buf, getLineLoopTrace len (pre ++ 13 :: post) buffer idx
        = (some ⟨buf, post, (idx + pre.length + 1) % 256⟩,
            (List.range (pre.length + 1)).map (fun j => (idx + j) % 256))
      ∧ buf.length = buffer.length := by
  intro pre
  induction pre with
  | nil =>
    intro post buffer idx _ hidx
    refine ⟨buffer.set idx (toU8 (toS8 ((13 : Nat) : Int))), ?_, by simp⟩
    simp only [List.nil_append, getLineLoopTrace]
    have hcond : ¬ ((((idx + 1) % 256 : Nat) : Int) < len ∧ toS8 ((13 : Nat) : Int) ≠ 13) := by
      intro h
      exact h.2 ((toS8_eq_cr 13 (by decide)).mpr rfl)
    rw [if_neg hcond]
    have hr : List.map (fun j => (idx + j) % 256) (List.range ([] : List Nat).length.succ)
        = [idx] := by
      show [(idx + 0) % 256] = [idx]
      rw [Nat.add_zero, Nat.mod_eq_of_lt hidx]
    show (_, [idx]) = (_, List.map (fun j => (idx + j) % 256) (List.range ([] : List Nat).length.succ))
    rw [hr]
    rfl
  | cons b pre ih =>
    intro post buffer idx hpre hidx
    have hb := hpre b (List.mem_cons_self _ _)
    have hcond : (((idx + 1) % 256 : Nat) : Int) < len ∧ toS8 b ≠ 13 := by
      refine ⟨by omega, ?_⟩
      intro h
      exact hb.2 ((toS8_eq_cr b hb.1).mp h)
    obtain ⟨buf, hrun, hbl⟩ := ih post (buffer.set idx (toU8 (toS8 b))) ((idx + 1) % 256)
      (fun x hx => hpre x (List.mem_cons_of_mem _ hx)) (Nat.mod_lt _ (by decide))
    refine ⟨buf, ?_, by rw [hbl]; simp⟩
    simp only [List.cons_append, getLineLoopTrace]
    rw [if_pos hcond]
    have hrun2 : getLineLoopTrace len (pre ++ 13 :: post) (buffer.set idx (toU8 (toS8 b)))
        ((idx + 1) % 256) = _ := hrun
    refine Prod.ext ?_ ?_
    · show (getLineLoopTrace len (pre ++ 13 :: post) (buffer.set idx (toU8 (toS8 b)))
        ((idx + 1) % 256)).1 = _
      rw [hrun2]
      simp only [List.length_cons]
      have : ((idx + 1) % 256 + pre.length + 1) % 256 = (idx + (pre.length + 1) + 1) % 256 := by
        omega
      rw [this]
    · show idx :: (getLineLoopTrace len (pre ++ 13 :: post) (buffer.set idx (toU8 (toS8 b)))
        ((idx + 1) % 256)).2 = _
      rw [hrun2]
      simp only [List.length_cons]
      rw [List.range_succ_eq_map (pre.length + 1), List.map_cons, List.map_map]
      congr 1
      · omega
      · apply List.map_congr_left
        intro j _
        simp only [Function.comp]
        omega

theorem toS16_nonneg (n : Nat) (h : n ≤ 32767) : toS16 n = n := by
  unfold toS16
  omega

theorem getLineTrace_wrap (pre post buffer : List Nat) (L : Nat)
    (hpre : ∀ b ∈ pre, b < 256 ∧ b ≠ 13)
    (hL : strlen buffer = some L) (hL256 : 256 ≤ L) (hL32767 : L ≤ 32767) :
    ∃ buf, UART_getLineTrace (pre ++ 13 :: post) buffer
        = (some ⟨buf, post, (pre.length + 1) % 256⟩,
            (List.range (pre.length + 1)).map (fun j => j % 256) ++ [(pre.length + 1) % 256])
      ∧ buf[(pre.length + 1) % 256]? = some 0 := by
  have hbuf := strlen_spec buffer L hL
  obtain ⟨buf, hrun, hbl⟩ := getLineLoopTrace_wrap (toS16 L)
    (by rw [toS16_nonneg L hL32767]; omega) pre post buffer 0 hpre (by decide)
  simp only [Nat.zero_add] at hrun
  have hlt : (pre.length + 1) % 256 < buf.length := by
    have := Nat.mod_lt (pre.length + 1) (by decide : 0 < 256)
    omega
  refine ⟨buf.set ((pre.length + 1) % 256) 0, ?_, List.getElem?_set_self hlt⟩
  unfold UART_getLineTrace
  rw [hL]
  simp only [hrun]

/-! ## The claims -/

/-- Claim C1 (code defect): `UART_putU8` does not suppress a leading zero in the
hundreds place, because `digit1` is compared with the number `0` and not with
the character `'0'`: for `v = 7` it transmits the two bytes `"07"`, whereas the
decimal text of 7 is `"7"`. -/
theorem putU8_seven_keeps_leading_zero :
    UART_putU8 7 = [48, 55] ∧ decimalText 7 = [55] := by
  constructor
  · simp [UART_putU8, digitLoop, UART_putc]
  · decide

/-- Claim C2 (counterexample): with a buffer holding a string of length 5 and
the incoming bytes `"ab\rxy"`, `UART_getLine` does not leave `"ab"` terminated
at index 2: the carriage return itself is stored at index 2. -/
theorem getLine_cr_not_stripped :
    strlen [49, 50, 51, 52, 53, 0] = some 5
      ∧ ¬ ∃ st, UART_getLine [97, 98, 13, 120, 121] [49, 50, 51, 52, 53, 0] = some st
          ∧ st.buffer.take 2 = [97, 98] ∧ st.buffer[2]? = some 0 := by
  refine ⟨by decide, ?_⟩
  rintro ⟨st, hst, -, h0⟩
  have hrun : UART_getLine [97, 98, 13, 120, 121] [49, 50, 51, 52, 53, 0]
      = some ⟨[97, 98, 13, 0, 53, 0], [120, 121], 3⟩ := by decide
  rw [hrun] at hst
  cases hst
  revert h0
  decide

/-- Claim C2 (amended): for a buffer whose initial string length `L` satisfies
`1 ≤ L ≤ 255` and an incoming byte stream whose first carriage return is at
position `k < L` (so `1 ≤ L`), `UART_getLine` leaves the `k` bytes that precede the carriage
return at indices `0..k-1`, the carriage return at index `k` and the NUL
terminator at index `k + 1`; it consumes `k + 1` bytes. -/
theorem getLine_line_with_cr (rx buffer : List Nat) (L k : Nat)
    (hbytes : ∀ b ∈ rx, b < 256) (hL : strlen buffer = some L)
    (hL255 : L ≤ 255) (hk : k < L)
    (hcr : rx[k]? = some 13) (hfirst : ∀ i, i < k → rx[i]? ≠ some 13) :
    UART_getLine rx buffer
      = some ⟨rx.take k ++ 13 :: 0 :: buffer.drop (k + 2), rx.drop (k + 1), k + 1⟩ := by
  have hklen : k < rx.length := by
    by_contra h
    rw [List.getElem?_eq_none (by omega)] at hcr
    cases hcr
  have hrun := getLine_index rx buffer L (k + 1) hbytes hL hL255 (by omega) (by omega)
    (by omega) (fun i hi => hfirst i (by omega)) (Or.inl hcr)
  have hget : rx[k] = 13 := by
    rw [List.getElem?_eq_getElem hklen] at hcr
    exact Option.some.inj hcr
  have htake : rx.take (k + 1) = rx.take k ++ [13] := by
    rw [List.take_succ, List.getElem?_eq_getElem hklen, hget]
    rfl
  rw [hrun, htake, List.append_assoc]
  rfl

/-- Witness for the amended C2: buffer `"12345"`, incoming bytes `"ab\rxy"`. -/
theorem getLine_line_with_cr_witness :
    UART_getLine [97, 98, 13, 120, 121] [49, 50, 51, 52, 53, 0]
      = some ⟨[97, 98, 13, 0, 53, 0], [120, 121], 3⟩ :=
  getLine_line_with_cr [97, 98, 13, 120, 121] [49, 50, 51, 52, 53, 0] 5 2
    (by decide) (by decide) (by decide) (by decide) (by decide) (by decide)

/-- Claim C3: for every `uint16_t` value `v`, `UART_putU16 v` transmits the
canonical decimal text of `v`: between 1 and 5 bytes, each an ASCII digit, most
significant first, with no leading zero unless the text is the single digit. -/
theorem putU16_decimal (v : Nat) (hv : v < 65536) :
    UART_putU16 v = decimalText v
      ∧ 1 ≤ (UART_putU16 v).length ∧ (UART_putU16 v).length ≤ 5
      ∧ (∀ c ∈ UART_putU16 v, 48 ≤ c ∧ c ≤ 57)
      ∧ (2 ≤ (UART_putU16 v).length → (UART_putU16 v).head? ≠ some 48)
      ∧ (v = 0 → UART_putU16 v = [48]) := by
  refine ⟨by rw [putU16_digits v hv, toDigits_eq v hv], ?_⟩
  rw [putU16_digits v hv]
  have b1 : v / 10000 < 7 := by omega
  have b2 : v / 1000 % 10 < 10 := Nat.mod_lt _ (by decide)
  have b3 : v / 100 % 10 < 10 := Nat.mod_lt _ (by decide)
  have b4 : v / 10 % 10 < 10 := Nat.mod_lt _ (by decide)
  have b5 : v % 10 < 10 := Nat.mod_lt _ (by decide)
  by_cases h1 : v / 10000 = 0
  · by_cases h2 : v / 1000 = 0
    · by_cases h3 : v / 100 = 0
      · by_cases h4 : v / 10 = 0
        · have h0 : v = 0 → v % 10 = 0 := by omega
          simp [h1, h2, h3, h4]
          omega
        · have h4m : v / 10 % 10 ≠ 0 := by omega
          simp [h1, h2, h3, h4]
          omega
      · have h3m : v / 100 % 10 ≠ 0 := by omega
        have h4 : v / 10 ≠ 0 := by omega
        simp [h1, h2, h3, h4]
        omega
    · have h2m : v / 1000 % 10 ≠ 0 := by omega
      have h3 : v / 100 ≠ 0 := by omega
      have h4 : v / 10 ≠ 0 := by omega
      simp [h1, h2, h3, h4]
      omega
  · have h2 : v / 1000 ≠ 0 := by omega
    have h3 : v / 100 ≠ 0 := by omega
    have h4 : v / 10 ≠ 0 := by omega
    simp [h1, h2, h3, h4]
    omega

/-- Witness for C3 at `v = 10000`, which is transmitted as `"10000"`. -/
theorem putU16_decimal_witness :
    (10000 < 65536) ∧ UART_putU16 10000 = [49, 48, 48, 48, 48] :=
  ⟨by decide, (putU16_decimal 10000 (by decide)).1.trans (by decide)⟩

/-- Claim C4: for every `int16_t` value `v` with `-32767 ≤ v ≤ 32767`,
`UART_putS16 v` transmits the signed decimal text of `v`: what `UART_putU16 v`
transmits when `v ≥ 0`, and `'-'` followed by what `UART_putU16 (-v)` transmits
when `v < 0`. -/
theorem putS16_signed (v : Int) (hlo : -32767 ≤ v) (hhi : v ≤ 32767) :
    (0 ≤ v → UART_putS16 v = UART_putU16 v.toNat)
      ∧ (v < 0 → UART_putS16 v = 45 :: UART_putU16 (-v).toNat)
      ∧ UART_putS16 v = signedDecimalText v := by
  have hsign := sign16_iff v (by omega) hhi
  have hpos : 0 ≤ v → UART_putS16 v = UART_putU16 v.toNat := by
    intro h0
    have hns : ¬ (toU16 v &&& 0x8000 ≠ 0) := by rw [hsign]; omega
    have hu : toU16 v = v.toNat := by unfold toU16; omega
    rw [UART_putS16, if_neg hns, hu]
  have hneg : v < 0 → UART_putS16 v = 45 :: UART_putU16 (-v).toNat := by
    intro h0
    rw [UART_putS16, if_pos (hsign.mpr h0), negate16 v hlo h0]
    rfl
  refine ⟨hpos, hneg, ?_⟩
  unfold signedDecimalText
  by_cases h0 : v < 0
  · rw [if_pos h0, hneg h0, putU16_digits _ (by omega), toDigits_eq _ (by omega)]
  · rw [if_neg h0, hpos (by omega), putU16_digits _ (by omega), toDigits_eq _ (by omega)]

/-- Witness for C4 at `v = -123`, transmitted as `"-123"`. -/
theorem putS16_signed_witness :
    (-32767 ≤ (-123 : Int)) ∧ ((-123 : Int) ≤ 32767)
      ∧ UART_putS16 (-123) = [45, 49, 50, 51] :=
  ⟨by decide, by decide,
    (putS16_signed (-123) (by decide) (by decide)).2.2.trans (by decide)⟩

/-- Claim C5: for every `uint8_t` value `v`, `UART_puthex8 v` transmits exactly
two bytes, each an uppercase hexadecimal digit, the high nibble first, and
reading the two digits as a base-16 numeral gives back `v`. -/
theorem puthex8_roundtrip (v : Nat) (hv : v < 256) :
    (UART_puthex8 v).length = 2
      ∧ (∀ c ∈ UART_puthex8 v, isUpperHexDigit c)
      ∧ UART_puthex8 v = [hexChar (v / 16), hexChar (v % 16)]
      ∧ parseHex (UART_puthex8 v) = v := by
  have hq : v / 16 < 16 := by omega
  have hr : v % 16 < 16 := Nat.mod_lt _ (by decide)
  rw [puthex8_eq v hv]
  refine ⟨rfl, ?_, rfl, ?_⟩
  · intro c hc
    simp only [List.mem_cons, List.mem_singleton, List.mem_nil_iff, or_false] at hc
    rcases hc with rfl | rfl
    · exact hexChar_isUpper _ hq
    · exact hexChar_isUpper _ hr
  · simp only [parseHex, List.foldl, hexValue_hexChar _ hq, hexValue_hexChar _ hr]
    omega

/-- Witness for C5 at `v = 0xAB`, transmitted as `"AB"`. -/
theorem puthex8_roundtrip_witness :
    (171 < 256) ∧ UART_puthex8 171 = [65, 66] ∧ parseHex (UART_puthex8 171) = 171 :=
  ⟨by decide, (puthex8_roundtrip 171 (by decide)).2.2.1.trans (by decide),
    (puthex8_roundtrip 171 (by decide)).2.2.2⟩

/-- Claim C6: for every `uint32_t` value `v`, `UART_puthex32 v` transmits exactly
eight bytes, each an uppercase hexadecimal digit, from the most significant
nibble to the least significant with leading zeros kept, and reading them as a
base-16 numeral gives back `v`. -/
theorem puthex32_fixed_width (v : Nat) (hv : v < 4294967296) :
    (UART_puthex32 v).length = 8
      ∧ (∀ c ∈ UART_puthex32 v, isUpperHexDigit c)
      ∧ UART_puthex32 v =
          [hexChar (v / 16 ^ 7 % 16), hexChar (v / 16 ^ 6 % 16), hexChar (v / 16 ^ 5 % 16),
           hexChar (v / 16 ^ 4 % 16), hexChar (v / 16 ^ 3 % 16), hexChar (v / 16 ^ 2 % 16),
           hexChar (v / 16 ^ 1 % 16), hexChar (v / 16 ^ 0 % 16)]
      ∧ parseHex (UART_puthex32 v) = v := by
  have hm : ∀ n, n % 16 < 16 := fun n => Nat.mod_lt _ (by decide)
  rw [puthex32_digits v hv]
  refine ⟨rfl, ?_, ?_, ?_⟩
  · intro c hc
    simp only [List.mem_cons, List.mem_singleton, List.mem_nil_iff, or_false] at hc
    rcases hc with rfl | rfl | rfl | rfl | rfl | rfl | rfl | rfl <;> exact hexChar_isUpper _ (hm _)
  · norm_num
  · simp only [parseHex, List.foldl, hexValue_hexChar _ (hm _)]
    omega

/-- Witness for C6 at `v = 0x00AB12F0`, transmitted as `"00AB12F0"`. -/
theorem puthex32_fixed_width_witness :
    (11211504 < 4294967296) ∧ UART_puthex32 11211504 = [48, 48, 65, 66, 49, 50, 70, 48] :=
  ⟨by decide, (puthex32_fixed_width 11211504 (by decide)).2.2.1.trans (by decide)⟩

/-- Claim C7: for every `uint16_t` value `v`, the bytes of `UART_puthex16 v` are
those of `UART_puthex8 (v >> 8)` followed by those of `UART_puthex8 (v & 0xFF)`,
four bytes in total. -/
theorem puthex16_decompose (v : Nat) (hv : v < 65536) :
    UART_puthex16 v = UART_puthex8 (v >>> 8) ++ UART_puthex8 (v &&& 0xFF)
      ∧ (UART_puthex16 v).length = 4 := by
  have h1 : v >>> 8 = v / 256 := Nat.shiftRight_eq_div_pow v 8
  have h2 : v &&& 0xFF = v % 256 := Nat.and_pow_two_sub_one_eq_mod v 8
  rw [h1, h2, puthex16_eq v hv]
  refine ⟨rfl, ?_⟩
  rw [puthex8_eq _ (by omega : v / 256 < 256), puthex8_eq _ (Nat.mod_lt _ (by decide))]
  rfl

/-- Witness for C7 at `v = 0x12F0`. -/
theorem puthex16_decompose_witness :
    (4848 < 65536) ∧ UART_puthex16 4848 = UART_puthex8 (4848 >>> 8) ++ UART_puthex8 (4848 &&& 0xFF) :=
  ⟨by decide, (puthex16_decompose 4848 (by decide)).1⟩

/-- Claim C8 (code defect): for a negative `int8_t` value `UART_putS8` computes
`-(val - 1)`, which is the magnitude plus one: for `v = -1` it transmits `'-'`
followed by the byte 2, whereas the negation of `-1` is 1. -/
theorem putS8_minus_one_off_by_one :
    UART_putS8 (-1) = [45, 2] ∧ toU8 (-(-1 : Int)) = 1 := by
  decide

/-- Claim C9: for every byte sequence `s` that ends with a zero byte,
`UART_puts s` transmits, in order, exactly the longest prefix of `s` whose bytes
all lie in `1..127`: it stops at the first byte that is zero or at least 128.
When every byte before the final zero lies in `1..127`, the whole string is
transmitted. -/
theorem puts_transmits_plain_bytes (s : List Nat) (hbytes : ∀ b ∈ s, b < 256)
    (hz : s.getLast? = some 0) :
    UART_puts s = some (s.takeWhile isPlainChar)
      ∧ (∃ c rest, s = s.takeWhile isPlainChar ++ c :: rest ∧ (c = 0 ∨ 128 ≤ c))
      ∧ ((∀ b ∈ s.dropLast, 1 ≤ b ∧ b ≤ 127) → UART_puts s = some s.dropLast) := by
  have hmem : 0 ∈ s := List.mem_of_getLast?_eq_some hz
  have hrun := puts_takeWhile s hbytes hmem
  refine ⟨hrun, ?_, ?_⟩
  · obtain ⟨c, rest, he, hc⟩ := takeWhile_stop s hmem
    refine ⟨c, rest, he, ?_⟩
    have hc2 : ¬ (1 ≤ c ∧ c ≤ 127) := by simpa [isPlainChar] using hc
    omega
  · intro hall
    obtain ⟨pre, rfl⟩ := List.getLast?_eq_some_iff.mp hz
    rw [List.dropLast_concat] at hall ⊢
    rw [hrun, List.takeWhile_append_of_pos (fun a ha => by simp [isPlainChar, hall a ha])]
    simp [List.takeWhile, isPlainChar]

/-- Witness for C9: the bytes `"AB"`, then `0xC8`, then `"C"` and the final zero;
only `"AB"` is transmitted. -/
theorem puts_transmits_plain_bytes_witness :
    UART_puts [65, 66, 200, 67, 0] = some [65, 66] :=
  (puts_transmits_plain_bytes [65, 66, 200, 67, 0] (by decide) (by decide)).1.trans (by decide)

/-- Claim C10: for a buffer whose initial string length `L` satisfies
`1 ≤ L ≤ 255` and an incoming byte stream `rx`, let `n ≥ 1` be the smallest
count such that the `n`-th byte is a carriage return or `n = L`.  Then
`UART_getLine` consumes exactly the first `n` bytes of the stream, stores them
in arrival order at buffer offsets `0..n-1`, writes the NUL terminator at offset
`n`, and leaves the buffer beyond offset `n` as it was.  The list `rx` is any
part of the stream, from its start, that holds at least these `n` bytes. -/
theorem getLine_consumes (rx buffer : List Nat) (L n : Nat)
    (hbytes : ∀ b ∈ rx, b < 256) (hL : strlen buffer = some L)
    (hL1 : 1 ≤ L) (hL255 : L ≤ 255) (hn1 : 1 ≤ n) (hlen : n ≤ rx.length)
    (hstop : rx[n - 1]? = some 13 ∨ n = L)
    (hmin : ∀ m, 1 ≤ m → m < n → ¬ (rx[m - 1]? = some 13 ∨ m = L)) :
    UART_getLine rx buffer
      = some ⟨rx.take n ++ 0 :: buffer.drop (n + 1), rx.drop n, n⟩ := by
  have hnL : n ≤ L := by
    by_contra h
    exact hmin L hL1 (by omega) (Or.inr rfl)
  refine getLine_index rx buffer L n hbytes hL hL255 hn1 hnL hlen ?_ hstop
  intro i hi hcr
  exact hmin (i + 1) (by omega) hi (Or.inl (by rw [Nat.add_sub_cancel]; exact hcr))

/-- Witness for C10: buffer `"123"` (length 3) and incoming bytes `"abcd"` with
no carriage return; three bytes are consumed and the terminator is at offset 3. -/
theorem getLine_consumes_witness :
    UART_getLine [97, 98, 99, 100] [49, 50, 51, 0, 7]
      = some ⟨[97, 98, 99, 0, 7], [100], 3⟩ :=
  getLine_consumes [97, 98, 99, 100] [49, 50, 51, 0, 7] 3 3
    (by decide) (by decide) (by decide) (by decide) (by decide) (by decide) (by decide)
    (by decide)

/-- Claim C11 (code defect): for a buffer whose initial string length is 0 the
loop of `UART_getLine` is a `do ... while` and runs once before the length is
tested: with the incoming bytes `"ab"` it consumes `'a'`, stores it at index 0
and writes the terminator at index 1, past the terminator of the empty
string. -/
theorem getLine_empty_buffer_reads_one_byte :
    strlen [0, 7, 7] = some 0
      ∧ UART_getLineTrace [97, 98] [0, 7, 7] = (some ⟨[97, 0, 7], [98], 1⟩, [0, 1])
      ∧ UART_getLine [97, 98] [0, 7, 7] = some ⟨[97, 0, 7], [98], 1⟩ := by
  decide

/-- Claim C12: for all `baudrate` and `cpu_speed` (in particular all `uint32_t`
values), `UART_init` computes `d = (cpu_speed + baudrate) / ((baudrate * 16) - 1)`
with wraparound modulo `2^32` and truncating division, and writes bits 8..15 of
`d` into `UBRRH` and bits 0..7 into `UBRR0L`, so that
`UBRRH * 256 + UBRR0L = d` whenever `d < 65536`.  The formula is stated over the
integers, sum and divisor each reduced modulo `2^32`; where nothing wraps it is
the plain quotient `(cpu_speed + baudrate) / (baudrate * 16 - 1)`. -/
theorem init_baud_registers (io : IoBits) (baudrate cpu_speed : Nat) :
    ∃ (d : Nat) (regs : BaudRegs),
      ((d : Nat) : Int) = (((cpu_speed : Int) + (baudrate : Int)) % 4294967296)
          / ((((baudrate : Int) * 16) - 1) % 4294967296)
      ∧ (1 ≤ baudrate → baudrate * 16 < 4294967296 → cpu_speed + baudrate < 4294967296 →
          d = (cpu_speed + baudrate) / (baudrate * 16 - 1))
      ∧ ubrrVal baudrate cpu_speed = some d
      ∧ UART_init io baudrate cpu_speed = some regs
      ∧ regs.UBRRH = d / 256 % 256 ∧ regs.UBRR0L = d % 256
      ∧ (d < 65536 → regs.UBRRH * 256 + regs.UBRR0L = d) := by
  have hnum : (((cpu_speed + baudrate) % 4294967296 : Nat) : Int)
      = ((cpu_speed : Int) + (baudrate : Int)) % 4294967296 := by
    omega
  have hden : ((ubrrDenominator baudrate : Nat) : Int)
      = (((baudrate : Int) * 16) - 1) % 4294967296 := by
    unfold ubrrDenominator
    omega
  refine ⟨_, _, ?_, ?_, ubrrVal_eq baudrate cpu_speed, init_eq io baudrate cpu_speed,
    rfl, rfl, ?_⟩
  · rw [Int.natCast_div, hnum, hden]
  · intro hb h16 hsum
    have h1 : (cpu_speed + baudrate) % 4294967296 = cpu_speed + baudrate :=
      Nat.mod_eq_of_lt hsum
    have h2 : ubrrDenominator baudrate = baudrate * 16 - 1 := by
      unfold ubrrDenominator
      omega
    rw [h1, h2]
  · intro hd
    simp only [] at hd ⊢
    generalize (cpu_speed + baudrate) % 4294967296 / ubrrDenominator baudrate = d at hd ⊢
    omega

/-- Witness for C12: `baudrate = 9600` and `cpu_speed = 16000000` give
`d = 16009600 / 153599 = 104`, high byte 0 and low byte 104. -/
theorem init_baud_registers_witness :
    ∃ regs, UART_init ⟨4, 3, 2, 1⟩ 9600 16000000 = some regs
      ∧ regs.UBRRH = 0 ∧ regs.UBRR0L = 104
      ∧ ubrrVal 9600 16000000 = some ((16000000 + 9600) / (9600 * 16 - 1))
      ∧ (16000000 + 9600) / (9600 * 16 - 1) = 104 := by
  obtain ⟨d, regs, _, hplain, hval, hinit, hhigh, hlow, _⟩ :=
    init_baud_registers ⟨4, 3, 2, 1⟩ 9600 16000000
  have hd : d = (16000000 + 9600) / (9600 * 16 - 1) :=
    hplain (by decide) (by decide) (by decide)
  have h104 : (16000000 + 9600) / (9600 * 16 - 1) = 104 := by decide
  refine ⟨regs, hinit, ?_, ?_, ?_, h104⟩
  · rw [hhigh, hd, h104]
  · rw [hlow, hd, h104]
  · rw [hval, hd]

/-- Claim C13: for every `uint8_t` value `v`, every byte transmitted by
`UART_putU8 v` is an ASCII decimal digit, and reading the bytes as a base-10
numeral, most significant digit first, gives `v`. -/
theorem putU8_parses_back (v : Nat) (hv : v < 256) :
    (∀ c ∈ UART_putU8 v, isDecimalDigit c) ∧ parseDecimal (UART_putU8 v) = v := by
  rw [putU8_digits v hv]
  have b1 : v / 100 < 3 := by omega
  have b2 : v / 10 % 10 < 10 := Nat.mod_lt _ (by decide)
  have b3 : v % 10 < 10 := Nat.mod_lt _ (by decide)
  by_cases h10 : 10 ≤ v
  · rw [if_pos h10]
    constructor
    · intro c hc
      simp only [List.cons_append, List.nil_append, List.mem_cons, List.mem_singleton,
        List.mem_nil_iff, or_false] at hc
      unfold isDecimalDigit
      rcases hc with rfl | rfl | rfl <;> omega
    · simp only [parseDecimal, List.cons_append, List.nil_append, List.foldl]
      omega
  · rw [if_neg h10]
    constructor
    · intro c hc
      simp only [List.cons_append, List.nil_append, List.mem_cons, List.mem_singleton,
        List.mem_nil_iff, or_false] at hc
      unfold isDecimalDigit
      rcases hc with rfl | rfl <;> omega
    · simp only [parseDecimal, List.cons_append, List.nil_append, List.foldl]
      omega

/-- Witness for C13 at `v = 7`: the bytes `"07"` read as the numeral 7. -/
theorem putU8_parses_back_witness :
    (7 < 256) ∧ parseDecimal (UART_putU8 7) = 7 :=
  ⟨by decide, (putU8_parses_back 7 (by decide)).2⟩

/-- Claim C14: for every `int8_t` value `v` with `0 ≤ v ≤ 127`, `UART_putS8 v`
transmits exactly one byte, the raw value `v`, with no sign character. -/
theorem putS8_nonneg_raw (v : Int) (h0 : 0 ≤ v) (h127 : v ≤ 127) :
    UART_putS8 v = [v.toNat] := by
  have hns : ¬ (toU16 v &&& 0x80 ≠ 0) := by
    rw [show (0x80 : Nat) = 2 ^ 7 from rfl, and_two_pow_ne_zero]
    unfold toU16
    omega
  rw [UART_putS8, if_neg hns]
  unfold UART_putc toU8
  congr 1
  omega

/-- Witness for C14 at `v = 65`: the single byte 65 (`'A'`), not `"65"`. -/
theorem putS8_nonneg_raw_witness :
    (0 ≤ (65 : Int)) ∧ ((65 : Int) ≤ 127) ∧ UART_putS8 65 = [65] :=
  ⟨by decide, by decide, putS8_nonneg_raw 65 (by decide) (by decide)⟩

/-- Claim C15: for a buffer whose initial string length `L` satisfies
`1 ≤ L ≤ 255` and any incoming bytes, every buffer index `UART_getLine` writes
to is at most `L`, hence inside the `L + 1` bytes of the original string and its
terminator, and when it returns every buffer byte at an index greater than the
final terminator position is unchanged. -/
theorem getLine_writes_in_bounds (rx buffer : List Nat) (L : Nat)
    (hL : strlen buffer = some L) (hL1 : 1 ≤ L) (hL255 : L ≤ 255) :
    (∀ i ∈ (UART_getLineTrace rx buffer).2, i ≤ L ∧ i < buffer.length)
      ∧ ∀ st, UART_getLine rx buffer = some st →
          ∀ i, st.bufferIndex < i → st.buffer[i]? = buffer[i]? := by
  have hbuf := strlen_spec buffer L hL
  obtain ⟨hw, hst⟩ := getLineLoopTrace_bound L hL255 rx buffer 0 (by omega)
  have hlen : toS16 (L : Int) = (L : Int) := toS16_small L hL255
  constructor
  · intro i hi
    unfold UART_getLineTrace at hi
    rw [hL] at hi
    simp only [hlen] at hi
    cases hr : (getLineLoopTrace (L : Int) rx buffer 0).1 with
    | none =>
      rw [hr] at hi
      have := hw i hi
      omega
    | some st =>
      rw [hr] at hi
      simp only [List.mem_append, List.mem_singleton] at hi
      obtain ⟨_, h2, _⟩ := hst st hr
      rcases hi with h | h
      · have := hw i h
        omega
      · omega
  · intro st hs i hi
    rw [← getLineTrace_fst] at hs
    unfold UART_getLineTrace at hs
    rw [hL] at hs
    simp only [hlen] at hs
    cases hr : (getLineLoopTrace (L : Int) rx buffer 0).1 with
    | none => rw [hr] at hs; cases hs
    | some st0 =>
      rw [hr] at hs
      simp only [Option.some.injEq] at hs
      subst hs
      obtain ⟨_, _, h3⟩ := hst st0 hr
      simp only at hi
      simp only
      rw [List.getElem?_set_ne (by omega), h3 i (by omega)]

/-- Witness for C15: buffer `"123"` followed by the bytes 7 and 9, incoming bytes
`"a\r"`: the indices written are 0, 1 and 2, and the bytes from index 3 on are
unchanged. -/
theorem getLine_writes_in_bounds_witness :
    UART_getLineTrace [97, 13, 98] [49, 50, 51, 0, 7, 9]
        = (some ⟨[97, 13, 0, 0, 7, 9], [98], 2⟩, [0, 1, 2])
      ∧ ∀ i ∈ (UART_getLineTrace [97, 13, 98] [49, 50, 51, 0, 7, 9]).2,
          i ≤ 3 ∧ i < [49, 50, 51, 0, 7, 9].length :=
  ⟨by decide,
    (getLine_writes_in_bounds [97, 13, 98] [49, 50, 51, 0, 7, 9] 3
      (by decide) (by decide) (by decide)).1⟩

/-- Claim C16 (counterexample): `bufferLength` is an `int`, 16 bits wide, so a
string length of 32768 is converted to `-32768` and the length test fails at
once: with the incoming bytes `"ab\r"` the routine consumes one byte and
writes the terminator at index 1, not three bytes and index 3. -/
theorem getLine_length_32768_stops_early :
    strlen (List.replicate 32768 1 ++ [0]) = some 32768
      ∧ ([97, 98, 13] : List Nat)[2]? = some 13
      ∧ ∃ st, UART_getLine [97, 98, 13] (List.replicate 32768 1 ++ [0]) = some st
          ∧ st.rest = [98, 13] ∧ st.bufferIndex = 1 :=
  ⟨strlen_replicate 32768, by decide, _,
    getLine_one_pass 97 [98, 13] _ 32768 (strlen_replicate 32768) (by decide), rfl, rfl⟩

/-- Claim C16 (amended): for a buffer whose initial string length `L` satisfies
`256 ≤ L ≤ 32767` the length bound never ends the loop of `UART_getLine`: the
8-bit write index wraps modulo 256 and stays below `L`.  When the first carriage
return is at stream position `k`, the routine consumes exactly `k + 1` bytes,
stores byte `j` at index `j mod 256`, and writes the terminator at index
`(k + 1) mod 256`, an index already stored to when `k ≥ 255`. -/
theorem getLine_long_buffer_wraps (rx buffer : List Nat) (L k : Nat)
    (hbytes : ∀ b ∈ rx, b < 256) (hL : strlen buffer = some L)
    (hL256 : 256 ≤ L) (hL32767 : L ≤ 32767)
    (hcr : rx[k]? = some 13) (hfirst : ∀ i, i < k → rx[i]? ≠ some 13) :
    ∃ st, UART_getLine rx buffer = some st
      ∧ st.rest = rx.drop (k + 1)
      ∧ st.bufferIndex = (k + 1) % 256
      ∧ st.buffer[(k + 1) % 256]? = some 0
      ∧ (UART_getLineTrace rx buffer).2
          = (List.range (k + 1)).map (fun j => j % 256) ++ [(k + 1) % 256]
      ∧ (255 ≤ k → (k + 1) % 256 ∈ (List.range (k + 1)).map (fun j => j % 256)) := by
  obtain ⟨hsplit, htl, hpre⟩ := split_at_cr rx k hbytes hcr hfirst
  obtain ⟨buf, hrun, hnul⟩ := getLineTrace_wrap (rx.take k) (rx.drop (k + 1)) buffer L hpre
    hL hL256 hL32767
  rw [← hsplit, htl] at hrun
  rw [htl] at hnul
  refine ⟨⟨buf, rx.drop (k + 1), (k + 1) % 256⟩, ?_, rfl, rfl, hnul, ?_, ?_⟩
  · rw [← getLineTrace_fst, hrun]
  · rw [hrun]
  · intro hk
    have hlt : (k + 1) % 256 < 256 := Nat.mod_lt _ (by decide)
    exact List.mem_map.mpr ⟨(k + 1) % 256, List.mem_range.mpr (by omega),
      Nat.mod_eq_of_lt hlt⟩

/-- Witness for the amended C16: a buffer holding a string of length 300 and 256
bytes `'a'` followed by a carriage return: 257 bytes are consumed and the
terminator is written at index 1. -/
theorem getLine_long_buffer_wraps_witness :
    ∃ st, UART_getLine (List.replicate 256 97 ++ [13]) (List.replicate 300 1 ++ [0]) = some st
      ∧ st.rest = List.drop (256 + 1) (List.replicate 256 97 ++ [13])
      ∧ st.bufferIndex = (256 + 1) % 256
      ∧ st.buffer[(256 + 1) % 256]? = some 0
      ∧ (UART_getLineTrace (List.replicate 256 97 ++ [13]) (List.replicate 300 1 ++ [0])).2
          = (List.range (256 + 1)).map (fun j => j % 256) ++ [(256 + 1) % 256]
      ∧ (255 ≤ 256 → (256 + 1) % 256 ∈ (List.range (256 + 1)).map (fun j => j % 256)) :=
  getLine_long_buffer_wraps (List.replicate 256 97 ++ [13]) (List.replicate 300 1 ++ [0]) 300 256
    (by
      intro b hb
      rcases List.mem_append.mp hb with h | h
      · rw [List.eq_of_mem_replicate h]; decide
      · rw [List.mem_singleton.mp h]; decide)
    (strlen_replicate 300) (by decide) (by decide)
    (by
      rw [List.getElem?_append_right (le_of_eq (List.length_replicate _ _)),
        List.length_replicate]
      rfl)
    (by
      intro i hi
      rw [List.getElem?_append_left (by rw [List.length_replicate]; exact hi),
        List.getElem?_replicate, if_pos hi]
      decide)

/-- Claim C17: for `v = -32768`, with the subtraction and the conversions back
to 16 bits wrapping modulo `2^16`, `~(v - 1)` has the bit pattern `0x8000` and
`UART_putS16 v` transmits `"-32768"`. -/
theorem putS16_min_value :
    toU16 (toS16 (~~~ (toS16 (-32768 - 1)))) = 0x8000
      ∧ UART_putS16 (-32768) = [45, 51, 50, 55, 54, 56] := by
  have hbits : toU16 (toS16 (~~~ (toS16 (-32768 - 1)))) = 32768 := by decide
  have hsign : toU16 (-32768) &&& 0x8000 ≠ 0 := by decide
  refine ⟨hbits, ?_⟩
  rw [UART_putS16, if_pos hsign, hbits, putU16_digits 32768 (by decide)]
  decide

/-- Claim C18: for every `baudrate` (in particular every `uint32_t` value) the
divisor `(baudrate * 16) - 1` modulo `2^32` is non-zero, so the division in
`UART_init` is defined for every input; for `baudrate = 0` the divisor is
`2^32 - 1` and the value written to the baud registers is 0 for every
`cpu_speed` below `2^32 - 1`. -/
theorem init_division_defined (io : IoBits) (baudrate cpu_speed : Nat) :
    ubrrDenominator baudrate ≠ 0
      ∧ (UART_init io baudrate cpu_speed).isSome = true
      ∧ ubrrDenominator 0 = 4294967295
      ∧ (cpu_speed < 4294967295 →
          ubrrVal 0 cpu_speed = some 0
            ∧ (UART_init io 0 cpu_speed).map (fun r => (r.UBRRH, r.UBRR0L)) = some (0, 0)) := by
  refine ⟨ubrrDenominator_ne_zero baudrate, by rw [init_eq]; rfl, by decide, ?_⟩
  intro hc
  have hden : ubrrDenominator 0 = 4294967295 := by decide
  have hd : (cpu_speed + 0) % 4294967296 / ubrrDenominator 0 = 0 := by
    rw [hden]
    omega
  constructor
  · rw [ubrrVal_eq, hd]
  · rw [init_eq, hd]
    rfl

/-- Witness for C18 at `baudrate = 0`, `cpu_speed = 16000000`. -/
theorem init_division_defined_witness :
    (16000000 < 4294967295)
      ∧ (UART_init ⟨4, 3, 2, 1⟩ 0 16000000).map (fun r => (r.UBRRH, r.UBRR0L)) = some (0, 0) :=
  ⟨by decide, ((init_division_defined ⟨4, 3, 2, 1⟩ 0 16000000).2.2.2 (by decide)).2⟩

/-- Claim C19: for every `uint8_t` value `v`, `UART_putU8 v` always transmits the
hundreds digit, since `digit1` is at least `'0'` and so never equal to the
number 0: the output is the three digits of `v`, zero-padded, when `v ≥ 10`, and
`'0'` followed by the ones digit when `v < 10`. -/
theorem putU8_hundreds_always_sent (v : Nat) (hv : v < 256) :
    (digitLoop 100 (by decide) 256 v 48).2 ≠ 0
      ∧ (UART_putU8 v).head? = some (48 + v / 100)
      ∧ (10 ≤ v → UART_putU8 v = [48 + v / 100, 48 + v / 10 % 10, 48 + v % 10])
      ∧ (v < 10 → UART_putU8 v = [48, 48 + v]) := by
  rw [putU8_digits v hv, digitLoop_eq _ _ _ v 48 hv (by decide)]
  refine ⟨?_, ?_, ?_, ?_⟩
  · simp only []
    omega
  · by_cases h10 : 10 ≤ v
    · rw [if_pos h10]
      rfl
    · rw [if_neg h10]
      have : v / 100 = 0 := by omega
      rw [this]
      rfl
  · intro h10
    rw [if_pos h10]
    rfl
  · intro h10
    rw [if_neg (by omega), Nat.mod_eq_of_lt h10]
    rfl

/-- Witness for C19 at `v = 10`, transmitted as `"010"`. -/
theorem putU8_hundreds_always_sent_witness :
    (10 < 256) ∧ UART_putU8 10 = [48, 49, 48] :=
  ⟨by decide, (putU8_hundreds_always_sent 10 (by decide)).2.2.1 (by decide)⟩

end UART
